import Mathlib

/-
Verification of the table rendering program in src/HTML Tables/tables.cpp.

The shallow embedding below translates the C++ classes into Lean data and
functions:

- std::string is modelled as a list of characters (abbrev Str).
- The class hierarchy CBase / CEmpty / CText / CImage / CTableCell is a
  closed inductive type CBase; CTable is an inductive with the fields
  Rows, Cols, Cells (a list of rows, each a list of cells).
- size_t is modelled as Nat.  The only unguarded size_t subtraction in the
  program is the padding width in CText::Output; every verified statement
  below constrains it to the non-wrapping case (line length at most the
  requested width), which is also the only case reachable from table
  rendering, where the requested width is a column maximum.
- The mutually recursive rendering functions (operator<< descends into
  embedded tables through CTableCell::Width/Height/Output) are defined by a
  Nat fuel parameter; fuel equal to the structural size of the table always
  suffices, and the stability theorems below prove the result is then
  independent of the fuel, so every definition is executable and reduces in
  the kernel.
-/

set_option linter.unusedVariables false

/-- Str models std::string as a list of characters. -/
abbrev Str := List Char

/-- FormatingType mirrors the alignment enum of CText (tables.cpp lines 100 to 103). -/
inductive FormatingType where
  | ALIGN_LEFT
  | ALIGN_RIGHT
deriving DecidableEq, Repr

mutual
/-- CBase is the closed content type: the C++ classes CEmpty, CText (lines of
text plus an alignment), CImage (rows of pixels) and CTableCell (an embedded
deep-copied CTable, lines 292 to 335). -/
inductive CBase where
  | empty : CBase
  | text : List Str → FormatingType → CBase
  | image : List Str → CBase
  | tcell : CTable → CBase
deriving Repr

/-- CTable mirrors the C++ class CTable (lines 342 to 495): a row count, a
column count and the grid Cells. -/
inductive CTable where
  | mk : Nat → Nat → List (List CBase) → CTable
deriving Repr
end

mutual
/-- Structural size of a content value, used as a sufficient fuel bound. -/
def csize : CBase → Nat
  | .empty => 1
  | .text _ _ => 1
  | .image _ => 1
  | .tcell t => 1 + tsize t

/-- Structural size of a table value, used as a sufficient fuel bound. -/
def tsize : CTable → Nat
  | .mk _ _ grid => 1 + gridsize grid

/-- Structural size of a grid of cells. -/
def gridsize : List (List CBase) → Nat
  | [] => 0
  | row :: rest => rowsize row + gridsize rest

/-- Structural size of one row of cells. -/
def rowsize : List CBase → Nat
  | [] => 0
  | c :: rest => csize c + rowsize rest
end

/-- Mirror of repeated std::getline over an input string stream: split at
newline characters, dropping each terminator; a trailing terminator does not
produce a final empty line, and an unterminated final fragment does produce a
line (used by CText::setText line 124 and by CTableCell lines 508 to 549). -/
def getlines : Str → List Str
  | [] => []
  | c :: rest =>
    if c = '\n' then [] :: getlines rest
    else
      match getlines rest with
      | [] => [[c]]
      | l :: ls => (c :: l) :: ls

/-- Fold computing the maximum of f over a range of indices, starting at 0;
mirrors the running-maximum loops of the C++ code. -/
def rangeMaxFold (n : Nat) (f : Nat → Nat) : Nat :=
  (List.range n).foldl (fun a i => max a (f i)) 0

/-- Fold computing the maximum length of a list of strings, mirroring the
loops of CText::Width (lines 145 to 150) and CTableCell::Width (lines 508 to
520). -/
def maxLenFold (ls : List Str) : Nat := ls.foldl (fun a l => max a l.length) 0

/-- CText constructor (lines 115 to 118): parse the text with setText. -/
def CText.make (textArg : Str) (format : FormatingType) : CBase :=
  .text (getlines textArg) format

/-- CEmpty::Output (lines 75 to 77): a blank block of spaces. -/
def CEmpty.Output (height width : Nat) : List Str :=
  List.replicate height (List.replicate width ' ')

/-- CText::Width (lines 145 to 150): maximum stored line length. -/
def CText.Width (allLines : List Str) : Nat := maxLenFold allLines

/-- CText::Output (lines 166 to 179): for each output index the stored line
or the empty string, padded with spaces on the right for ALIGN_LEFT and on
the left for ALIGN_RIGHT.  The C++ padding count is the size_t difference
width - line.size(), which wraps if a line is longer than width; Nat
subtraction instead truncates to zero there.  All statements proved below
assume line length at most width, where the two readings agree. -/
def CText.Output (allLines : List Str) (formatType : FormatingType) (height width : Nat) : List Str :=
  (List.range height).map fun i =>
    let line := allLines.getD i []
    match formatType with
    | .ALIGN_LEFT => line ++ List.replicate (width - line.length) ' '
    | .ALIGN_RIGHT => List.replicate (width - line.length) ' ' ++ line

/-- CImage::Width (lines 228 to 230): length of the first row, 0 if none. -/
def CImage.Width (imageData : List Str) : Nat :=
  match imageData with
  | [] => 0
  | r0 :: _ => r0.length

/-- Mirror of std::string::replace(pos, count, repl). -/
def strReplace (s : Str) (pos count : Nat) (repl : Str) : Str :=
  s.take pos ++ repl ++ s.drop (pos + count)

/-- CImage::Output (lines 246 to 268): a blank canvas with the image copied
at centering offsets, truncating rows that would overflow the width; the C++
loop stops at the first row index i with i + offsetY >= height, and since
that condition is monotone in i the guarded fold below is equivalent. -/
def CImage.Output (imageData : List Str) (height width : Nat) : List Str :=
  let out := List.replicate height (List.replicate width ' ')
  if imageData = [] ∨ height = 0 ∨ width = 0 then out
  else
    let imgHeight := imageData.length
    let imgWidth := CImage.Width imageData
    let offsetY := if height > imgHeight then (height - imgHeight) / 2 else 0
    let offsetX := if width > imgWidth then (width - imgWidth) / 2 else 0
    (List.range imgHeight).foldl (fun acc i =>
      if i + offsetY < height then
        let imgLine := imageData.getD i []
        let newRow :=
          if offsetX + imgLine.length > width then
            strReplace (acc.getD (i + offsetY) []) offsetX (width - offsetX) (imgLine.take (width - offsetX))
          else
            strReplace (acc.getD (i + offsetY) []) offsetX imgLine.length imgLine
        acc.set (i + offsetY) newRow
      else acc) out

/-- CTableCell::Width (lines 508 to 520) applied to the rendered text of the
embedded table: the maximum getline line length. -/
def CTableCell.WidthOf (rendered : Str) : Nat := maxLenFold (getlines rendered)

/-- Newline count of a string, mirroring std::count in CTableCell::Height. -/
def countNewlines (s : Str) : Nat := s.count '\n'

/-- CTableCell::Height (lines 522 to 529) applied to the rendered text of the
embedded table: the newline count, plus one if the text is nonempty and does
not end in a newline. -/
def CTableCell.HeightOf (rendered : Str) : Nat :=
  countNewlines rendered + (if rendered = [] ∨ rendered.getLast? = some '\n' then 0 else 1)

/-- CTableCell::Output (lines 531 to 549) applied to the rendered text of the
embedded table: up to height getline lines, each truncated or padded to
width, then blank lines of spaces up to height. -/
def CTableCell.OutputOf (rendered : Str) (height width : Nat) : List Str :=
  let taken := ((getlines rendered).take height).map fun line =>
    if line.length > width then line.take width
    else line ++ List.replicate (width - line.length) ' '
  taken ++ List.replicate (height - taken.length) (List.replicate width ' ')

/-- Virtual dispatch of Width over the content variants, parametrized by the
renderer used for an embedded table. -/
def cellWidthW (ren : CTable → Str) : CBase → Nat
  | .empty => 0
  | .text allLines _ => CText.Width allLines
  | .image imageData => CImage.Width imageData
  | .tcell t => CTableCell.WidthOf (ren t)

/-- Virtual dispatch of Height over the content variants, parametrized by the
renderer used for an embedded table.  CText::Height is the stored line count
(lines 156 to 158) and CImage::Height the row count (lines 236 to 238). -/
def cellHeightW (ren : CTable → Str) : CBase → Nat
  | .empty => 0
  | .text allLines _ => allLines.length
  | .image imageData => imageData.length
  | .tcell t => CTableCell.HeightOf (ren t)

/-- Virtual dispatch of Output over the content variants, parametrized by the
renderer used for an embedded table. -/
def cellOutputW (ren : CTable → Str) : CBase → Nat → Nat → List Str
  | .empty, height, width => CEmpty.Output height width
  | .text allLines formatType, height, width => CText.Output allLines formatType height width
  | .image imageData, height, width => CImage.Output imageData height width
  | .tcell t, height, width => CTableCell.OutputOf (ren t) height width

/-- Unchecked grid indexing Cells[r][c]; in range it returns the stored cell,
out of range there is no cell and the C++ program has undefined behaviour, so
the result here defaults to an Empty value. -/
def cellsAt (grid : List (List CBase)) (r c : Nat) : CBase :=
  (grid.getD r []).getD c .empty

/-- Per-column maximum widths maxColWidths of the stream output operator
(lines 454 to 461), parametrized by the renderer used for embedded tables. -/
def colWidthsW (ren : CTable → Str) (Rows Cols : Nat) (grid : List (List CBase)) : List Nat :=
  (List.range Cols).map fun c => rangeMaxFold Rows fun r => cellWidthW ren (cellsAt grid r c)

/-- Per-row maximum heights maxRowHeights of the stream output operator
(lines 454 to 461), parametrized by the renderer used for embedded tables. -/
def rowHeightsW (ren : CTable → Str) (Rows Cols : Nat) (grid : List (List CBase)) : List Nat :=
  (List.range Rows).map fun r => rangeMaxFold Cols fun c => cellHeightW ren (cellsAt grid r c)

/-- Border line of printBorder (lines 463 to 468): a plus sign, then for
each column the column width in dashes and a plus sign, then a newline. -/
def borderW (widths : List Nat) (Cols : Nat) : Str :=
  '+' :: ((List.range Cols).map fun c => List.replicate (widths.getD c 0) '-' ++ ['+']).flatten ++ ['\n']

/-- Content lines of one row of the stream output operator (lines 472 to
483): the cells of the row are resized to the row height and the column
widths, then for each line index a pipe, the cell chunks each followed by a
pipe, and a newline. -/
def rowBlockW (ren : CTable → Str) (Cols : Nat) (grid : List (List CBase)) (r : Nat)
    (widths : List Nat) (hh : Nat) : Str :=
  let outputRow := (List.range Cols).map fun c =>
    cellOutputW ren (cellsAt grid r c) hh (widths.getD c 0)
  ((List.range hh).map fun v =>
    '|' :: ((List.range Cols).map fun c => (outputRow.getD c []).getD v [] ++ ['|']).flatten ++ ['\n']).flatten

/-- Body of the stream output operator for CTable (lines 453 to 489),
parametrized by the renderer used for embedded tables: compute per-column
maximum widths and per-row maximum heights, then emit a border line followed,
for each row, by its content lines and a border line. -/
def renderStep (ren : CTable → Str) : CTable → Str
  | .mk Rows Cols grid =>
    let maxColWidths := colWidthsW ren Rows Cols grid
    let maxRowHeights := rowHeightsW ren Rows Cols grid
    let border := borderW maxColWidths Cols
    border ++ ((List.range Rows).map fun r =>
      rowBlockW ren Cols grid r maxColWidths (maxRowHeights.getD r 0) ++ border).flatten

/-- Fuel-indexed renderer; each unit of fuel allows one level of table
nesting.  Zero fuel returns the empty string, and the stability theorem
below shows any fuel at least tsize t gives the same result. -/
def renderTF : Nat → CTable → Str
  | 0, _ => []
  | fuel + 1, t => renderStep (renderTF fuel) t

/-- Render of a table: the stream output operator with sufficient fuel. -/
def CTable.render (t : CTable) : Str := renderTF (tsize t) t

/-- Natural width of a content value (virtual CBase::Width). -/
def cellWidth : CBase → Nat := cellWidthW CTable.render

/-- Natural height of a content value (virtual CBase::Height). -/
def cellHeight : CBase → Nat := cellHeightW CTable.render

/-- Resized output of a content value (virtual CBase::Output). -/
def cellOutput : CBase → Nat → Nat → List Str := cellOutputW CTable.render

/-- Clone of a content value (virtual CBase::Clone): each class allocates a
copy of itself; the copy carries the same value.  CTableCell::Clone (lines
504 to 506) copies the shared pointer to the embedded table, which is never
mutated after construction, so its value is also preserved. -/
def cloneC : CBase → CBase
  | .empty => .empty
  | .text allLines formatType => .text allLines formatType
  | .image imageData => .image imageData
  | .tcell t => .tcell t

/-- Write one grid slot: Cells[r][c] = v; out of range this is a no-op where
the C++ program has undefined behaviour. -/
def set2 {α : Type} (grid : List (List α)) (r c : Nat) (v : α) : List (List α) :=
  grid.set r ((grid.getD r []).set c v)

/-- CTable constructor (lines 349 to 357): a Rows x Cols grid of CEmpty. -/
def CTable.new (rows cols : Nat) : CTable :=
  .mk rows cols (List.replicate rows (List.replicate cols .empty))

/-- CTable::setCell for content (lines 389 to 391): store a clone. -/
def CTable.setCell : CTable → Nat → Nat → CBase → CTable
  | .mk R C grid, r, c, cell => .mk R C (set2 grid r c (cloneC cell))

/-- Copy constructor of CTable (lines 363 to 371): same dimensions, every
cell cloned. -/
def CTable.copy : CTable → CTable
  | .mk R C grid =>
    .mk R C ((List.range R).map fun r => (List.range C).map fun c => cloneC (cellsAt grid r c))

/-- CTable::setCell for an embedded table (lines 399 to 401): store a
CTableCell holding a deep copy of the argument table, made by the CTableCell
constructor through make_shared<CTable>(table) (lines 501 to 502). -/
def CTable.setCellTable : CTable → Nat → Nat → CTable → CTable
  | .mk R C grid, r, c, src => .mk R C (set2 grid r c (.tcell (CTable.copy src)))

/-- CTable::getCell (lines 379 to 381) performs the unchecked access
Cells[row][col]; in range it returns the stored cell, out of range the C++
program has undefined behaviour and there is no result, modelled as none. -/
def CTable.getCell? : CTable → Nat → Nat → Option CBase
  | .mk _ _ grid, r, c => (grid.get? r).bind fun row => row.get? c

/-- Mutation of a text cell in place through getCell, as in
dynamic_cast<CText&>(t.getCell(r, c)).setText(s) (setText, lines 124 to
131): replace the stored lines, keeping the alignment. -/
def CTable.setTextAt : CTable → Nat → Nat → Str → CTable
  | .mk R C grid, r, c, s =>
    .mk R C (set2 grid r c (match cellsAt grid r c with
      | .text _ formatType => .text (getlines s) formatType
      | other => other))

/-- CTable::operator= (lines 433 to 445): take the dimensions of the source
and clone every cell; the first parameter, the overwritten table, does not
influence the result (the self-assignment guard compares addresses, and when
it fires the operands are equal, so the value produced is the same). -/
def CTable.assign (this other : CTable) : CTable := CTable.copy other

/-- Row count accessor. -/
def CTable.rowsOf : CTable → Nat
  | .mk R _ _ => R

/-- Column count accessor. -/
def CTable.colsOf : CTable → Nat
  | .mk _ C _ => C

/-- Well-formedness of a table value: the grid really has Rows rows of Cols
cells each.  Every table reachable through the public constructors and
setters satisfies it. -/
def CTable.WF : CTable → Prop
  | .mk R C grid => grid.length = R ∧ ∀ row ∈ grid, row.length = C

instance : DecidablePred CTable.WF := fun t =>
  match t with
  | .mk R C grid => inferInstanceAs (Decidable (grid.length = R ∧ ∀ row ∈ grid, row.length = C))

/-- Content equality dispatch (the virtual operator== of the content
classes, lines 87 to 89, 186 to 189, 275 to 278, 551 to 554): equality holds
only between the same variants, comparing the payload, and for embedded
tables comparing the tables with the given table equality. -/
def beqCW (beqT : CTable → CTable → Bool) : CBase → CBase → Bool
  | .empty, .empty => true
  | .empty, _ => false
  | .text l1 f1, .text l2 f2 => decide (l1 = l2) && decide (f1 = f2)
  | .text _ _, _ => false
  | .image d1, .image d2 => decide (d1 = d2)
  | .image _, _ => false
  | .tcell t1, .tcell t2 => beqT t1 t2
  | .tcell _, _ => false

/-- CTable::operator== body (lines 408 to 417), parametrized by the content
equality used for cells: dimensions first, then every cell pair. -/
def beqTStep (beqC : CBase → CBase → Bool) : CTable → CTable → Bool
  | .mk R1 C1 g1, .mk R2 C2 g2 =>
    if R1 ≠ R2 ∨ C1 ≠ C2 then false
    else (List.range R1).all fun r => (List.range C1).all fun c =>
      beqC (cellsAt g1 r c) (cellsAt g2 r c)

/-- Fuel-indexed table equality; fuel at least tsize of the left operand is
always sufficient. -/
def beqTF : Nat → CTable → CTable → Bool
  | 0, _, _ => false
  | fuel + 1, t1, t2 => beqTStep (beqCW (beqTF fuel)) t1 t2

/-- CTable::operator== with sufficient fuel. -/
def CTable.beq (t1 t2 : CTable) : Bool := beqTF (tsize t1) t1 t2

/-- Content equality (virtual CBase::operator==) with sufficient fuel. -/
def CBase.beq : CBase → CBase → Bool := beqCW CTable.beq

/-- Nesting-depth contribution of one cell: an embedded table adds one level
on top of its own depth, other content has no nesting. -/
def cdepthW (tdep : CTable → Nat) : CBase → Nat
  | .tcell t => 1 + tdep t
  | _ => 0

/-- Fuel-indexed nesting depth of a table: the maximum nesting depth over
all cells of the grid. -/
def tdepthF : Nat → CTable → Nat
  | 0, _ => 0
  | fuel + 1, .mk _ _ grid =>
    grid.flatten.foldl (fun a cell => max a (cdepthW (tdepthF fuel) cell)) 0

/-- Nesting depth of a table with sufficient fuel. -/
def CTable.depth (t : CTable) : Nat := tdepthF (tsize t) t

/-- Cell access on a table value (contents of Cells[r][c]). -/
def CTable.cellAt : CTable → Nat → Nat → CBase
  | .mk _ _ grid, r, c => cellsAt grid r c

/- ----------------------------------------------------------------------
Store model.  The C++ grid holds shared_ptr<CBase> cells on the heap; the
aliasing claims (snapshot freezing and clone independence) are about which
heap objects a mutation can reach.  A Store is the heap of content objects,
addressed by allocation order, and an STable is the stack value of a CTable:
dimensions plus a grid of addresses.  An embedded table inside a tcell
object is kept as a pure CTable value because no operation of the program
can mutate a table once it sits inside a CTableCell (getCell exposes only
the CBase interface, which has no mutator reaching the embedded table).
---------------------------------------------------------------------- -/

/-- Heap of content objects, addressed by position. -/
abbrev Store := List CBase

/-- Stack value of a CTable in the store model: dimensions and a grid of
addresses of the owned content objects. -/
structure STable where
  rows : Nat
  cols : Nat
  cells : List (List Nat)

/-- Allocation: append the object, return its fresh address. -/
def allocS (store : Store) (obj : CBase) : Store × Nat :=
  (store ++ [obj], store.length)

/-- Read a table value out of the store, cloning each cell; mirrors the
CTable copy constructor (lines 363 to 371), which visits every slot and
stores Clone() of the object found there. -/
def readTableS (store : Store) (t : STable) : CTable :=
  .mk t.rows t.cols ((List.range t.rows).map fun r =>
    (List.range t.cols).map fun c =>
      cloneC (store.getD ((t.cells.getD r []).getD c 0) .empty))

/-- CTable::setCell for content in the store model (lines 389 to 391):
allocate a clone of the argument, point the slot at the fresh address. -/
def setCellS (store : Store) (t : STable) (r c : Nat) (cell : CBase) : Store × STable :=
  let p := allocS store (cloneC cell)
  (p.1, { t with cells := set2 t.cells r c p.2 })

/-- CTable::setCell for an embedded table in the store model (lines 399 to
401 and 501 to 502): allocate a fresh CTableCell object holding the deep
copy of the source read out of the store at call time. -/
def setCellTableS (store : Store) (t : STable) (r c : Nat) (src : STable) : Store × STable :=
  let p := allocS store (.tcell (readTableS store src))
  (p.1, { t with cells := set2 t.cells r c p.2 })

/-- getCell in the store model: follow the slot address into the store. -/
def getCellS (store : Store) (t : STable) (r c : Nat) : Option CBase :=
  ((t.cells.get? r).bind fun row => row.get? c).bind fun a => store.get? a

/-- In-place setText through getCell in the store model (lines 124 to 131):
overwrite the text object at the given address, keeping its alignment; on a
non-text object the C++ dynamic_cast would throw, nothing is written. -/
def setTextS (store : Store) (a : Nat) (s : Str) : Store :=
  store.set a (match store.getD a .empty with
    | .text _ formatType => .text (getlines s) formatType
    | other => other)

/- ----------------------------------------------------------------------
Claim-side definitions, following the words of the specification.
---------------------------------------------------------------------- -/

/-- Column width as the specification words it: the maximum natural Width
over the cells of column c. -/
def colWidthOf (t : CTable) (c : Nat) : Nat :=
  rangeMaxFold t.rowsOf fun r => cellWidth (t.cellAt r c)

/-- Row height as the specification words it: the maximum natural Height
over the cells of row r. -/
def rowHeightOf (t : CTable) (r : Nat) : Nat :=
  rangeMaxFold t.colsOf fun c => cellHeight (t.cellAt r c)

/-- Border line body (without the newline): a plus sign followed, for each
column, by colWidth dashes and a plus sign. -/
def borderBody (t : CTable) : Str :=
  '+' :: ((List.range t.colsOf).map fun c => List.replicate (colWidthOf t c) '-' ++ ['+']).flatten

/-- Border line, newline-terminated. -/
def borderOf (t : CTable) : Str := borderBody t ++ ['\n']

/-- Line v of the resized output of the cell at row r, column c. -/
def chunkOf (t : CTable) (r v c : Nat) : Str :=
  (cellOutput (t.cellAt r c) (rowHeightOf t r) (colWidthOf t c)).getD v []

/-- Content line body (without the newline): a pipe followed, for each
column, by that cell chunk and a pipe. -/
def contentBody (t : CTable) (r v : Nat) : Str :=
  '|' :: ((List.range t.colsOf).map fun c => chunkOf t r v c ++ ['|']).flatten

/-- Content line, newline-terminated. -/
def contentLineOf (t : CTable) (r v : Nat) : Str := contentBody t r v ++ ['\n']

/-- Rendered output as the specification describes it: a border line, then
for each row exactly rowHeight content lines followed by a border line. -/
def claimedRender (t : CTable) : Str :=
  borderOf t ++ ((List.range t.rowsOf).map fun r =>
    ((List.range (rowHeightOf t r)).map fun v => contentLineOf t r v).flatten ++ borderOf t).flatten

/-- Line bodies of the rendered output, in order, without the newline
terminators. -/
def lineBodies (t : CTable) : List Str :=
  borderBody t :: ((List.range t.rowsOf).map fun r =>
    ((List.range (rowHeightOf t r)).map fun v => contentBody t r v) ++ [borderBody t]).flatten

/-- Maximum line length of a text block, as the specification words it. -/
def specMaxLineLen (ls : List Str) : Nat :=
  (ls.map List.length).foldr max 0

/-- True when a direct cell stores no embedded newline character: text lines
and image rows are newline-free.  Text built through setText always is;
image rows are arbitrary addRow arguments. -/
def cellNoNL : CBase → Bool
  | .text allLines _ => allLines.all fun l => !(l.contains '\n')
  | .image imageData => imageData.all fun l => !(l.contains '\n')
  | _ => true

/-- True when every direct cell of the table is newline-free. -/
def tableNoNL : CTable → Bool
  | .mk _ _ grid => grid.flatten.all cellNoNL

/- ----------------------------------------------------------------------
Concrete fixtures used by witnesses and counterexamples.
---------------------------------------------------------------------- -/

/-- The 1 x 1 table with an Empty cell of Scenario B. -/
def tEmpty11 : CTable := CTable.new 1 1

/-- A 1 x 1 table whose image cell carries an embedded newline, reachable
through CImage::addRow. -/
def tBadImage : CTable := (CTable.new 1 1).setCell 0 0 (.image [("a\nb").data])

/-- A small 1 x 1 text table. -/
def tHi : CTable := (CTable.new 1 1).setCell 0 0 (CText.make ("Hi").data .ALIGN_LEFT)

/-- A 2 x 2 text table used by store-model witnesses. -/
def tOop : CTable :=
  ((((CTable.new 2 2).setCell 0 0 (CText.make ("OOP").data .ALIGN_LEFT)).setCell
    0 1 (CText.make ("Encapsulation").data .ALIGN_LEFT)).setCell
    1 0 (CText.make ("Polymorphism").data .ALIGN_LEFT)).setCell
    1 1 (CText.make ("Inheritance").data .ALIGN_LEFT)

/-- Witness store: one text object and one image object. -/
def storeW : Store := [.text [("ab").data] .ALIGN_LEFT, .image [("xy").data]]

/-- Witness source table over storeW: a 1 x 2 table owning both objects. -/
def srcW : STable := { rows := 1, cols := 2, cells := [[0, 1]] }

/-- Witness destination table over storeW: a 1 x 1 table. -/
def dstW : STable := { rows := 1, cols := 1, cells := [[0]] }

/- ----------------------------------------------------------------------
Size lemmas.
---------------------------------------------------------------------- -/

theorem csize_le_rowsize {c : CBase} {row : List CBase} (h : c ∈ row) :
    csize c ≤ rowsize row := by
  induction row with
  | nil => cases h
  | cons x xs ih =>
    rcases List.mem_cons.mp h with h | h
    · subst h; simp [rowsize]
    · have := ih h; simp [rowsize]; omega

theorem rowsize_le_gridsize {row : List CBase} {grid : List (List CBase)} (h : row ∈ grid) :
    rowsize row ≤ gridsize grid := by
  induction grid with
  | nil => cases h
  | cons x xs ih =>
    rcases List.mem_cons.mp h with h | h
    · subst h; simp [gridsize]
    · have := ih h; simp [gridsize]; omega

theorem tsize_pos (t : CTable) : 1 ≤ tsize t := by
  cases t; simp [tsize]

theorem cellsAt_eq_default_or_mem (grid : List (List CBase)) (r c : Nat) :
    cellsAt grid r c = CBase.empty ∨ ∃ row ∈ grid, cellsAt grid r c ∈ row := by
  unfold cellsAt
  rcases h1 : grid.get? r with _ | row
  · left
    have : grid.getD r [] = [] := by rw [List.getD_eq_getD_get?, h1]; rfl
    rw [this]; rfl
  · have hrow : grid.getD r [] = row := by rw [List.getD_eq_getD_get?, h1]; rfl
    have hrmem : row ∈ grid := List.get?_mem h1
    rw [hrow]
    rcases h2 : row.get? c with _ | cell
    · left
      rw [List.getD_eq_getD_get?, h2]; rfl
    · right
      refine ⟨row, hrmem, ?_⟩
      have hcell : row.getD c CBase.empty = cell := by rw [List.getD_eq_getD_get?, h2]; rfl
      rw [hcell]
      exact List.get?_mem h2

theorem csize_cellsAt_le (grid : List (List CBase)) (r c : Nat) :
    csize (cellsAt grid r c) ≤ 1 + gridsize grid := by
  rcases cellsAt_eq_default_or_mem grid r c with h | ⟨row, hrow, hmem⟩
  · rw [h]; simp [csize]
  · have := csize_le_rowsize hmem
    have := rowsize_le_gridsize hrow
    omega

theorem tsize_inner_lt {grid : List (List CBase)} {r c : Nat} {t : CTable}
    (h : cellsAt grid r c = CBase.tcell t) (R C : Nat) :
    tsize t < tsize (CTable.mk R C grid) := by
  rcases cellsAt_eq_default_or_mem grid r c with h2 | ⟨row, hrow, hmem⟩
  · rw [h] at h2; cases h2
  · rw [h] at hmem
    have h3 := csize_le_rowsize hmem
    have h4 := rowsize_le_gridsize hrow
    simp only [csize] at h3
    simp only [tsize]
    omega

/- ----------------------------------------------------------------------
Fold lemmas.
---------------------------------------------------------------------- -/

theorem le_foldl_maxBy {α : Type} (f : α → Nat) {l : List α} {x : α} (h : x ∈ l) (b : Nat) :
    f x ≤ l.foldl (fun a y => max a (f y)) b := by
  induction l generalizing b with
  | nil => cases h
  | cons z zs ih =>
    simp only [List.foldl_cons]
    rcases List.mem_cons.mp h with h | h
    · subst h
      have : ∀ (l2 : List α) (b2 : Nat), b2 ≤ l2.foldl (fun a y => max a (f y)) b2 := by
        intro l2
        induction l2 with
        | nil => simp
        | cons w ws ih2 =>
          intro b2
          simp only [List.foldl_cons]
          exact le_trans (Nat.le_max_left b2 (f w)) (ih2 _)
      exact le_trans (Nat.le_max_right b (f x)) (this zs _)
    · exact ih h _

theorem foldl_maxBy_le {α : Type} (f : α → Nat) {l : List α} {B : Nat} {b : Nat}
    (hb : b ≤ B) (h : ∀ x ∈ l, f x ≤ B) :
    l.foldl (fun a y => max a (f y)) b ≤ B := by
  induction l generalizing b with
  | nil => simpa using hb
  | cons z zs ih =>
    simp only [List.foldl_cons]
    exact ih (Nat.max_le.mpr ⟨hb, h z (List.mem_cons_self z zs)⟩)
      (fun x hx => h x (List.mem_cons_of_mem z hx))

theorem foldl_maxBy_congr {α : Type} {f g : α → Nat} {l : List α}
    (h : ∀ x ∈ l, f x = g x) (b : Nat) :
    l.foldl (fun a y => max a (f y)) b = l.foldl (fun a y => max a (g y)) b := by
  induction l generalizing b with
  | nil => rfl
  | cons z zs ih =>
    simp only [List.foldl_cons]
    rw [h z (List.mem_cons_self z zs)]
    exact ih (fun x hx => h x (List.mem_cons_of_mem z hx)) _

theorem le_rangeMaxFold {n : Nat} {f : Nat → Nat} {i : Nat} (h : i < n) :
    f i ≤ rangeMaxFold n f :=
  le_foldl_maxBy f (List.mem_range.mpr h) 0

theorem rangeMaxFold_le {n : Nat} {f : Nat → Nat} {B : Nat} (h : ∀ i, i < n → f i ≤ B) :
    rangeMaxFold n f ≤ B :=
  foldl_maxBy_le f (Nat.zero_le B) (fun x hx => h x (List.mem_range.mp hx))

theorem rangeMaxFold_congr {n : Nat} {f g : Nat → Nat} (h : ∀ i, i < n → f i = g i) :
    rangeMaxFold n f = rangeMaxFold n g :=
  foldl_maxBy_congr (fun x hx => h x (List.mem_range.mp hx)) 0

theorem le_maxLenFold {l : Str} {ls : List Str} (h : l ∈ ls) : l.length ≤ maxLenFold ls :=
  le_foldl_maxBy List.length h 0

theorem getD_range_map {α : Type} (f : Nat → α) {n i : Nat} (h : i < n) (d : α) :
    ((List.range n).map f).getD i d = f i := by
  rw [List.getD_eq_getD_get?]
  simp [List.get?_eq_getElem?, h]

/- ----------------------------------------------------------------------
Congruence of the rendering pipeline in the embedded-table renderer, and
fuel stability.
---------------------------------------------------------------------- -/

theorem cellWidthW_congr {f g : CTable → Str} {cell : CBase}
    (h : ∀ t, cell = CBase.tcell t → f t = g t) :
    cellWidthW f cell = cellWidthW g cell := by
  cases cell with
  | empty => rfl
  | text a b => rfl
  | image a => rfl
  | tcell t => simp only [cellWidthW]; rw [h t rfl]

theorem cellHeightW_congr {f g : CTable → Str} {cell : CBase}
    (h : ∀ t, cell = CBase.tcell t → f t = g t) :
    cellHeightW f cell = cellHeightW g cell := by
  cases cell with
  | empty => rfl
  | text a b => rfl
  | image a => rfl
  | tcell t => simp only [cellHeightW]; rw [h t rfl]

theorem cellOutputW_congr {f g : CTable → Str} {cell : CBase} (hh ww : Nat)
    (h : ∀ t, cell = CBase.tcell t → f t = g t) :
    cellOutputW f cell hh ww = cellOutputW g cell hh ww := by
  cases cell with
  | empty => rfl
  | text a b => rfl
  | image a => rfl
  | tcell t => simp only [cellOutputW]; rw [h t rfl]

theorem colWidthsW_congr {f g : CTable → Str} {R C : Nat} {grid : List (List CBase)}
    (h : ∀ r c t, cellsAt grid r c = CBase.tcell t → f t = g t) :
    colWidthsW f R C grid = colWidthsW g R C grid := by
  unfold colWidthsW
  apply List.map_eq_map_iff.mpr
  intro c hc
  exact rangeMaxFold_congr fun r hr => cellWidthW_congr fun t ht => h r c t ht

theorem rowHeightsW_congr {f g : CTable → Str} {R C : Nat} {grid : List (List CBase)}
    (h : ∀ r c t, cellsAt grid r c = CBase.tcell t → f t = g t) :
    rowHeightsW f R C grid = rowHeightsW g R C grid := by
  unfold rowHeightsW
  apply List.map_eq_map_iff.mpr
  intro r hr
  exact rangeMaxFold_congr fun c hc => cellHeightW_congr fun t ht => h r c t ht

theorem rowBlockW_congr {f g : CTable → Str} {C : Nat} {grid : List (List CBase)}
    {r : Nat} {w : List Nat} {hh : Nat}
    (h : ∀ r2 c t, cellsAt grid r2 c = CBase.tcell t → f t = g t) :
    rowBlockW f C grid r w hh = rowBlockW g C grid r w hh := by
  unfold rowBlockW
  have e : ((List.range C).map fun c => cellOutputW f (cellsAt grid r c) hh (w.getD c 0))
      = ((List.range C).map fun c => cellOutputW g (cellsAt grid r c) hh (w.getD c 0)) :=
    List.map_eq_map_iff.mpr fun c hc => cellOutputW_congr _ _ fun t ht => h r c t ht
  rw [e]

theorem renderStep_congr {f g : CTable → Str} {t : CTable}
    (h : ∀ t2, tsize t2 < tsize t → f t2 = g t2) :
    renderStep f t = renderStep g t := by
  cases t with
  | mk R C grid =>
    have hcell : ∀ r c t2, cellsAt grid r c = CBase.tcell t2 → f t2 = g t2 :=
      fun r c t2 ht => h t2 (tsize_inner_lt ht R C)
    simp only [renderStep]
    rw [colWidthsW_congr hcell, rowHeightsW_congr hcell]
    congr 1
    apply congrArg List.flatten
    apply List.map_eq_map_iff.mpr
    intro r hr
    rw [rowBlockW_congr hcell]

theorem renderTF_stable : ∀ (n : Nat) (t : CTable), tsize t ≤ n →
    ∀ fuel, tsize t ≤ fuel → renderTF fuel t = renderTF (tsize t) t := by
  intro n
  induction n with
  | zero => intro t ht; have := tsize_pos t; omega
  | succ m ih =>
    intro t ht fuel hf
    have h1 := tsize_pos t
    obtain ⟨f, rfl⟩ : ∃ f, fuel = f + 1 := ⟨fuel - 1, by omega⟩
    obtain ⟨s, hseq⟩ : ∃ s, tsize t = s + 1 := ⟨tsize t - 1, by omega⟩
    rw [hseq]
    simp only [renderTF]
    apply renderStep_congr
    intro t2 h2
    have e1 : renderTF f t2 = renderTF (tsize t2) t2 := ih t2 (by omega) f (by omega)
    have e2 : renderTF s t2 = renderTF (tsize t2) t2 := ih t2 (by omega) s (by omega)
    rw [e1, e2]

theorem renderTF_eq_render {t : CTable} {fuel : Nat} (h : tsize t ≤ fuel) :
    renderTF fuel t = t.render :=
  renderTF_stable (tsize t) t le_rfl fuel h

theorem render_eq_step (t : CTable) : t.render = renderStep CTable.render t := by
  obtain ⟨s, hseq⟩ : ∃ s, tsize t = s + 1 := ⟨tsize t - 1, by have := tsize_pos t; omega⟩
  show renderTF (tsize t) t = _
  rw [hseq]
  simp only [renderTF]
  apply renderStep_congr
  intro t2 h2
  exact renderTF_eq_render (by omega)

/- ----------------------------------------------------------------------
Characterization of the render as the specification describes it.
---------------------------------------------------------------------- -/

theorem colWidths_getD {R C : Nat} {grid : List (List CBase)} {c : Nat} (h : c < C) :
    (colWidthsW CTable.render R C grid).getD c 0 = colWidthOf (CTable.mk R C grid) c := by
  unfold colWidthsW
  rw [getD_range_map _ h]
  rfl

theorem rowHeights_getD {R C : Nat} {grid : List (List CBase)} {r : Nat} (h : r < R) :
    (rowHeightsW CTable.render R C grid).getD r 0 = rowHeightOf (CTable.mk R C grid) r := by
  unfold rowHeightsW
  rw [getD_range_map _ h]
  rfl

theorem border_eq {R C : Nat} {grid : List (List CBase)} :
    borderW (colWidthsW CTable.render R C grid) C = borderOf (CTable.mk R C grid) := by
  unfold borderW borderOf borderBody
  simp only [List.cons_append, CTable.colsOf]
  congr 2
  apply congrArg List.flatten
  apply List.map_eq_map_iff.mpr
  intro c hc
  rw [colWidths_getD (List.mem_range.mp hc)]

theorem rowBlock_eq {R C : Nat} {grid : List (List CBase)} {r : Nat} (hr : r < R) :
    rowBlockW CTable.render C grid r (colWidthsW CTable.render R C grid)
        (rowHeightOf (CTable.mk R C grid) r)
      = ((List.range (rowHeightOf (CTable.mk R C grid) r)).map fun v =>
          contentLineOf (CTable.mk R C grid) r v).flatten := by
  unfold rowBlockW
  apply congrArg List.flatten
  apply List.map_eq_map_iff.mpr
  intro v hv
  unfold contentLineOf contentBody
  simp only [List.cons_append, CTable.colsOf]
  congr 2
  apply congrArg List.flatten
  apply List.map_eq_map_iff.mpr
  intro c hc
  have hc2 := List.mem_range.mp hc
  rw [getD_range_map _ hc2]
  unfold chunkOf
  rw [colWidths_getD hc2]
  rfl

theorem render_eq_claimed (t : CTable) : t.render = claimedRender t := by
  cases t with
  | mk R C grid =>
    rw [render_eq_step]
    simp only [renderStep]
    rw [border_eq]
    unfold claimedRender
    simp only [CTable.rowsOf]
    congr 1
    apply congrArg List.flatten
    apply List.map_eq_map_iff.mpr
    intro r hr
    have hr2 := List.mem_range.mp hr
    congr 1
    rw [rowHeights_getD hr2]
    exact rowBlock_eq hr2

/- ----------------------------------------------------------------------
Shape of the resized outputs: exactly height lines, each exactly width
characters wide whenever the width is at least the natural content width.
---------------------------------------------------------------------- -/

theorem getD_default_or_mem {α : Type} (l : List α) (i : Nat) (d : α) :
    l.getD i d = d ∨ l.getD i d ∈ l := by
  rcases h : l.get? i with _ | x
  · left; rw [List.getD_eq_getD_get?, h]; rfl
  · right
    rw [List.getD_eq_getD_get?, h]
    exact List.get?_mem h

theorem getD_mem_of_lt {α : Type} (l : List α) {i : Nat} (h : i < l.length) (d : α) :
    l.getD i d ∈ l := by
  rw [List.getD_eq_getD_get?]
  rcases h2 : l.get? i with _ | x
  · rw [List.get?_eq_none] at h2; omega
  · exact List.get?_mem h2

theorem strReplace_length {s : Str} {pos count : Nat} {repl : Str} :
    (strReplace s pos count repl).length
      = min pos s.length + repl.length + (s.length - (pos + count)) := by
  simp [strReplace]
  omega

theorem emptyOutput_shape (h w : Nat) :
    (CEmpty.Output h w).length = h ∧ ∀ l ∈ CEmpty.Output h w, l.length = w := by
  unfold CEmpty.Output
  constructor
  · simp
  · intro l hl
    rw [List.eq_of_mem_replicate hl]
    simp

theorem textOutput_shape (allLines : List Str) (formatType : FormatingType) (h w : Nat)
    (hw : CText.Width allLines ≤ w) :
    (CText.Output allLines formatType h w).length = h
      ∧ ∀ l ∈ CText.Output allLines formatType h w, l.length = w := by
  unfold CText.Output
  constructor
  · simp
  · intro l hl
    obtain ⟨i, hi, rfl⟩ := List.mem_map.mp hl
    have hlen : (allLines.getD i []).length ≤ w := by
      rcases getD_default_or_mem allLines i [] with he | hm
      · rw [he]; simp
      · exact le_trans (le_maxLenFold hm) hw
    cases formatType <;>
      simp only [List.getD_eq_getD_get?, List.get?_eq_getElem?] at hlen <;>
      simp <;> omega

theorem imageOutput_shape (imageData : List Str) (h w : Nat) :
    (CImage.Output imageData h w).length = h ∧ ∀ l ∈ CImage.Output imageData h w, l.length = w := by
  unfold CImage.Output
  split
  · constructor
    · simp
    · intro l hl
      rw [List.eq_of_mem_replicate hl]
      simp
  · set imgW := CImage.Width imageData with himgW
    set offY := if h > imageData.length then (h - imageData.length) / 2 else 0 with hoffY
    set offX := if w > imgW then (w - imgW) / 2 else 0 with hoffX
    have hoffXle : offX ≤ w := by
      rw [hoffX]
      split
      · have := Nat.div_le_self (w - imgW) 2
        omega
      · omega
    have key : ∀ (idxs : List Nat) (acc : List Str), acc.length = h → (∀ l ∈ acc, l.length = w) →
        (idxs.foldl (fun acc i =>
          if i + offY < h then
            acc.set (i + offY)
              (if offX + (imageData.getD i []).length > w then
                strReplace (acc.getD (i + offY) []) offX (w - offX) ((imageData.getD i []).take (w - offX))
              else
                strReplace (acc.getD (i + offY) []) offX (imageData.getD i []).length (imageData.getD i []))
          else acc) acc).length = h
        ∧ ∀ l ∈ idxs.foldl (fun acc i =>
          if i + offY < h then
            acc.set (i + offY)
              (if offX + (imageData.getD i []).length > w then
                strReplace (acc.getD (i + offY) []) offX (w - offX) ((imageData.getD i []).take (w - offX))
              else
                strReplace (acc.getD (i + offY) []) offX (imageData.getD i []).length (imageData.getD i []))
          else acc) acc, l.length = w := by
      intro idxs
      induction idxs with
      | nil => intro acc h1 h2; exact ⟨h1, h2⟩
      | cons i rest ih =>
        intro acc h1 h2
        simp only [List.foldl_cons]
        split
        · apply ih
          · simp [h1]
          · intro l hl
            rcases List.mem_or_eq_of_mem_set hl with hl | rfl
            · exact h2 l hl
            · have hrowlen : (acc.getD (i + offY) []).length = w := by
                apply h2
                apply getD_mem_of_lt
                omega
              split
              · rw [strReplace_length]
                rw [List.length_take]
                omega
              · rw [strReplace_length]
                omega
        · exact ih acc h1 h2
    have base1 : (List.replicate h (List.replicate w ' ') : List Str).length = h := by simp
    have base2 : ∀ l ∈ (List.replicate h (List.replicate w ' ') : List Str), l.length = w := by
      intro l hl
      rw [List.eq_of_mem_replicate hl]
      simp
    exact key (List.range imageData.length) _ base1 base2

theorem tcellOutput_shape (rendered : Str) (h w : Nat) :
    (CTableCell.OutputOf rendered h w).length = h
      ∧ ∀ l ∈ CTableCell.OutputOf rendered h w, l.length = w := by
  unfold CTableCell.OutputOf
  have htaken : (((getlines rendered).take h).map fun line =>
      if line.length > w then line.take w
      else line ++ List.replicate (w - line.length) ' ').length ≤ h := by
    simp [List.length_take]
  constructor
  · simp only [List.length_append, List.length_replicate]
    omega
  · intro l hl
    rcases List.mem_append.mp hl with hl | hl
    · obtain ⟨line, hline, rfl⟩ := List.mem_map.mp hl
      split
      · simp; omega
      · simp; omega
    · rw [List.eq_of_mem_replicate hl]
      simp

theorem cellOutput_length (ren : CTable → Str) (cell : CBase) (h w : Nat) :
    (cellOutputW ren cell h w).length = h := by
  cases cell with
  | empty => exact (emptyOutput_shape h w).1
  | text a b => simp [cellOutputW, CText.Output]
  | image a => exact (imageOutput_shape a h w).1
  | tcell t => exact (tcellOutput_shape (ren t) h w).1

theorem cellOutput_line_length (ren : CTable → Str) {cell : CBase} (h w : Nat)
    (hw : cellWidthW ren cell ≤ w) :
    ∀ l ∈ cellOutputW ren cell h w, l.length = w := by
  cases cell with
  | empty => exact (emptyOutput_shape h w).2
  | text a b => exact (textOutput_shape a b h w hw).2
  | image a => exact (imageOutput_shape a h w).2
  | tcell t => exact (tcellOutput_shape (ren t) h w).2

/- ----------------------------------------------------------------------
Chunk lengths: inside a rendered table every cell chunk is exactly the
column width, because the column width is the maximum natural width of the
cells of that column.
---------------------------------------------------------------------- -/

theorem cellWidth_le_colWidthOf {t : CTable} {r c : Nat} (hr : r < t.rowsOf) :
    cellWidth (t.cellAt r c) ≤ colWidthOf t c := by
  unfold colWidthOf
  exact le_rangeMaxFold (f := fun r2 => cellWidth (t.cellAt r2 c)) hr

theorem chunkOf_mem {t : CTable} {r v c : Nat} (hv : v < rowHeightOf t r) :
    chunkOf t r v c ∈ cellOutput (t.cellAt r c) (rowHeightOf t r) (colWidthOf t c) := by
  unfold chunkOf
  apply getD_mem_of_lt
  rw [show cellOutput = cellOutputW CTable.render from rfl,
    cellOutput_length CTable.render (t.cellAt r c) (rowHeightOf t r) (colWidthOf t c)]
  exact hv

theorem chunkOf_length {t : CTable} {r v c : Nat} (hr : r < t.rowsOf)
    (hv : v < rowHeightOf t r) :
    (chunkOf t r v c).length = colWidthOf t c :=
  cellOutput_line_length CTable.render (rowHeightOf t r) (colWidthOf t c)
    (cellWidth_le_colWidthOf hr) (chunkOf t r v c) (chunkOf_mem hv)

/- ----------------------------------------------------------------------
Lemmas about getlines.
---------------------------------------------------------------------- -/

theorem getlines_cons_newline (rest : Str) : getlines ('\n' :: rest) = [] :: getlines rest := by
  simp [getlines]

theorem getlines_cons_ne {c : Char} (hc : c ≠ '\n') (rest : Str) :
    getlines (c :: rest)
      = match getlines rest with
        | [] => [[c]]
        | l :: ls => (c :: l) :: ls := by
  simp [getlines, hc]

theorem getlines_append_line {b rest : Str} (hb : '\n' ∉ b) :
    getlines (b ++ '\n' :: rest) = b :: getlines rest := by
  induction b with
  | nil => simp [getlines]
  | cons c cs ih =>
    have hc : c ≠ '\n' := fun h => hb (h ▸ List.mem_cons_self c cs)
    have hcs : '\n' ∉ cs := fun h => hb (List.mem_cons_of_mem c h)
    rw [List.cons_append, getlines_cons_ne hc, ih hcs]

theorem getlines_flatten {bodies : List Str} (h : ∀ b ∈ bodies, '\n' ∉ b) :
    getlines ((bodies.map fun b => b ++ ['\n']).flatten) = bodies := by
  induction bodies with
  | nil => rfl
  | cons b bs ih =>
    simp only [List.map_cons, List.flatten_cons, List.append_assoc, List.singleton_append]
    rw [getlines_append_line (h b (List.mem_cons_self b bs))]
    rw [ih fun b2 hb2 => h b2 (List.mem_cons_of_mem b hb2)]

theorem getlines_noNL : ∀ (s : Str), ∀ l ∈ getlines s, '\n' ∉ l := by
  intro s
  induction s with
  | nil => intro l hl; cases hl
  | cons c rest ih =>
    intro l hl
    by_cases hc : c = '\n'
    · subst hc
      rw [getlines_cons_newline] at hl
      rcases List.mem_cons.mp hl with rfl | hl
      · simp
      · exact ih l hl
    · rw [getlines_cons_ne hc] at hl
      rcases h2 : getlines rest with _ | ⟨l0, ls⟩ <;> rw [h2] at hl
      · rcases List.mem_cons.mp hl with rfl | hl
        · simp only [List.mem_singleton]
          exact fun h3 => hc h3.symm
        · cases hl
      · rcases List.mem_cons.mp hl with rfl | hl
        · intro hmem
          rcases List.mem_cons.mp hmem with h3 | h3
          · exact hc h3.symm
          · exact ih l0 (by rw [h2]; exact List.mem_cons_self l0 ls) h3
        · exact ih l (by rw [h2]; exact List.mem_cons_of_mem l0 hl)

theorem getlines_eq_nil_iff (s : Str) : getlines s = [] ↔ s = [] := by
  constructor
  · intro h
    cases s with
    | nil => rfl
    | cons c rest =>
      by_cases hc : c = '\n'
      · subst hc; rw [getlines_cons_newline] at h; cases h
      · rw [getlines_cons_ne hc] at h
        rcases h2 : getlines rest with _ | ⟨l0, ls⟩ <;> rw [h2] at h <;> cases h
  · intro h; subst h; rfl

theorem tcellHeightOf_eq (s : Str) : CTableCell.HeightOf s = (getlines s).length := by
  induction s with
  | nil => rfl
  | cons c rest ih =>
    by_cases hc : c = '\n'
    · subst hc
      rw [getlines_cons_newline]
      cases rest with
      | nil => rfl
      | cons c2 rest2 =>
        rw [List.length_cons, ← ih]
        unfold CTableCell.HeightOf countNewlines
        have hne1 : ¬(('\n' :: c2 :: rest2 : Str) = []) := by simp
        have hne2 : ¬((c2 :: rest2 : Str) = []) := by simp
        rw [List.getLast?_cons_cons]
        simp only [hne1, hne2, false_or]
        rcases eq_or_ne ((c2 :: rest2 : Str).getLast?) (some '\n') with he | he <;>
          simp [he, List.count_cons]
    · rw [getlines_cons_ne hc]
      rcases h2 : getlines rest with _ | ⟨l0, ls⟩
      · have hrest : rest = [] := (getlines_eq_nil_iff rest).mp h2
        subst hrest
        simp [CTableCell.HeightOf, countNewlines, List.count_cons, List.getLast?, hc]
      · have hrestne : rest ≠ [] := by
          intro h3
          rw [h3] at h2
          cases h2
        obtain ⟨c2, rest2, rfl⟩ : ∃ c2 rest2, rest = c2 :: rest2 := by
          cases rest with
          | nil => exact absurd rfl hrestne
          | cons a b => exact ⟨a, b, rfl⟩
        rw [List.length_cons, ← List.length_cons l0 ls, ← h2, ← ih]
        unfold CTableCell.HeightOf countNewlines
        have hne1 : ¬((c :: c2 :: rest2 : Str) = []) := by simp
        have hne2 : ¬((c2 :: rest2 : Str) = []) := by simp
        rw [List.getLast?_cons_cons]
        simp only [hne1, hne2, false_or]
        rcases eq_or_ne ((c2 :: rest2 : Str).getLast?) (some '\n') with he | he <;>
          simp [he, List.count_cons, hc]

/- ----------------------------------------------------------------------
Decomposition of the rendered output into newline-terminated line bodies.
---------------------------------------------------------------------- -/

theorem claimed_eq_bodies (t : CTable) :
    claimedRender t = ((lineBodies t).map fun b => b ++ ['\n']).flatten := by
  unfold claimedRender lineBodies borderOf contentLineOf
  simp only [List.map_cons, List.flatten_cons, List.map_flatten, List.flatten_flatten,
    List.map_map, List.append_assoc]
  congr 1
  congr 1
  apply congrArg List.flatten
  apply List.map_eq_map_iff.mpr
  intro r hr
  simp only [Function.comp_apply, List.map_append, List.map_map, List.flatten_append,
    List.map_cons, List.map_nil, List.flatten_cons, List.flatten_nil, List.append_nil,
    List.append_assoc, Function.comp_def]

theorem lineBodies_mem {t : CTable} {b : Str} (hb : b ∈ lineBodies t) :
    b = borderBody t
      ∨ ∃ r, r < t.rowsOf ∧ ∃ v, v < rowHeightOf t r ∧ b = contentBody t r v := by
  unfold lineBodies at hb
  rcases List.mem_cons.mp hb with rfl | hb
  · left; rfl
  · obtain ⟨block, hblock, hbin⟩ := List.mem_flatten.mp hb
    obtain ⟨r, hr, rfl⟩ := List.mem_map.mp hblock
    rcases List.mem_append.mp hbin with h | h
    · obtain ⟨v, hv, rfl⟩ := List.mem_map.mp h
      exact Or.inr ⟨r, List.mem_range.mp hr, v, List.mem_range.mp hv, rfl⟩
    · rw [List.mem_singleton] at h
      exact Or.inl h

/- ----------------------------------------------------------------------
Newline-freeness of the line bodies.
---------------------------------------------------------------------- -/

theorem borderBody_noNL (t : CTable) : '\n' ∉ borderBody t := by
  unfold borderBody
  intro h
  rcases List.mem_cons.mp h with h | h
  · exact absurd h (by decide)
  · obtain ⟨piece, hpiece, hin⟩ := List.mem_flatten.mp h
    obtain ⟨c, hc, rfl⟩ := List.mem_map.mp hpiece
    rcases List.mem_append.mp hin with h2 | h2
    · exact absurd (List.eq_of_mem_replicate h2) (by decide)
    · rw [List.mem_singleton] at h2
      exact absurd h2 (by decide)

theorem cellOutput_noNL {cell : CBase} (hnn : cellNoNL cell = true) (h w : Nat) :
    ∀ l ∈ cellOutputW CTable.render cell h w, '\n' ∉ l := by
  have hsp : ∀ n : Nat, '\n' ∉ List.replicate n ' ' := by
    intro n hmem
    exact absurd (List.eq_of_mem_replicate hmem) (by decide)
  cases cell with
  | empty =>
    intro l hl
    rw [List.eq_of_mem_replicate hl]
    exact hsp w
  | text allLines formatType =>
    intro l hl
    simp only [cellNoNL, List.all_eq_true] at hnn
    have hline : ∀ i : Nat, '\n' ∉ allLines.getD i [] := by
      intro i hmem
      rcases getD_default_or_mem allLines i [] with he | hm
      · rw [he] at hmem; cases hmem
      · have h5 := hnn _ hm
        rw [Bool.not_eq_true'] at h5
        simp only [List.contains] at h5
        rw [← List.elem_iff] at hmem
        rw [hmem] at h5
        cases h5
    obtain ⟨i, hi, rfl⟩ := List.mem_map.mp hl
    cases formatType <;> intro hmem <;> simp only [] at hmem <;>
      rcases List.mem_append.mp hmem with h2 | h2
    · exact hline i h2
    · exact hsp _ h2
    · exact hsp _ h2
    · exact hline i h2
  | image imageData =>
    simp only [cellNoNL, List.all_eq_true] at hnn
    have himg : ∀ i : Nat, '\n' ∉ imageData.getD i [] := by
      intro i hmem
      rcases getD_default_or_mem imageData i [] with he | hm
      · rw [he] at hmem; cases hmem
      · have h5 := hnn _ hm
        rw [Bool.not_eq_true'] at h5
        simp only [List.contains] at h5
        rw [← List.elem_iff] at hmem
        rw [hmem] at h5
        cases h5
    simp only [cellOutputW]
    unfold CImage.Output
    split
    · intro l hl
      rw [List.eq_of_mem_replicate hl]
      exact hsp w
    · set imgW := CImage.Width imageData
      set offY := if h > imageData.length then (h - imageData.length) / 2 else 0
      set offX := if w > imgW then (w - imgW) / 2 else 0
      have key : ∀ (idxs : List Nat) (acc : List Str), (∀ l ∈ acc, '\n' ∉ l) →
          ∀ l ∈ idxs.foldl (fun acc i =>
            if i + offY < h then
              acc.set (i + offY)
                (if offX + (imageData.getD i []).length > w then
                  strReplace (acc.getD (i + offY) []) offX (w - offX) ((imageData.getD i []).take (w - offX))
                else
                  strReplace (acc.getD (i + offY) []) offX (imageData.getD i []).length (imageData.getD i []))
            else acc) acc, '\n' ∉ l := by
        intro idxs
        induction idxs with
        | nil => intro acc h1; exact h1
        | cons i rest ih =>
          intro acc h1
          simp only [List.foldl_cons]
          split
          · apply ih
            intro l hl
            rcases List.mem_or_eq_of_mem_set hl with hl | rfl
            · exact h1 l hl
            · have hsrow : '\n' ∉ acc.getD (i + offY) [] := by
                rcases getD_default_or_mem acc (i + offY) [] with he | hm
                · rw [he]; intro h3; cases h3
                · exact h1 _ hm
              have hrepl1 : '\n' ∉ (imageData.getD i []).take (w - offX) :=
                fun h3 => himg i (List.mem_of_mem_take h3)
              have hrepl2 : '\n' ∉ imageData.getD i [] := himg i
              split <;> intro h3 <;> unfold strReplace at h3 <;>
                rcases List.mem_append.mp h3 with h4 | h4
              · rcases List.mem_append.mp h4 with h5 | h5
                · exact hsrow (List.mem_of_mem_take h5)
                · exact hrepl1 h5
              · exact hsrow (List.mem_of_mem_drop h4)
              · rcases List.mem_append.mp h4 with h5 | h5
                · exact hsrow (List.mem_of_mem_take h5)
                · exact hrepl2 h5
              · exact hsrow (List.mem_of_mem_drop h4)
          · exact ih acc h1
      apply key
      intro l hl
      rw [List.eq_of_mem_replicate hl]
      exact hsp w
  | tcell t2 =>
    intro l hl
    simp only [cellOutputW] at hl
    unfold CTableCell.OutputOf at hl
    rcases List.mem_append.mp hl with hl | hl
    · obtain ⟨line, hline, rfl⟩ := List.mem_map.mp hl
      have hln : '\n' ∉ line :=
        getlines_noNL _ line (List.mem_of_mem_take hline)
      split <;> intro h3
      · exact hln (List.mem_of_mem_take h3)
      · rcases List.mem_append.mp h3 with h4 | h4
        · exact hln h4
        · exact hsp _ h4
    · rw [List.eq_of_mem_replicate hl]
      exact hsp w

theorem contentBody_noNL {t : CTable} (hnn : tableNoNL t = true) (r v : Nat) :
    '\n' ∉ contentBody t r v := by
  obtain ⟨R, C, grid⟩ := t
  have hcell : ∀ r2 c2, cellNoNL (cellsAt grid r2 c2) = true := by
    intro r2 c2
    rcases cellsAt_eq_default_or_mem grid r2 c2 with he | ⟨row, hrow, hm⟩
    · rw [he]; rfl
    · simp only [tableNoNL, List.all_eq_true] at hnn
      exact hnn _ (List.mem_flatten.mpr ⟨row, hrow, hm⟩)
  unfold contentBody
  intro h
  rcases List.mem_cons.mp h with h | h
  · exact absurd h (by decide)
  · obtain ⟨piece, hpiece, hin⟩ := List.mem_flatten.mp h
    obtain ⟨c, hc, rfl⟩ := List.mem_map.mp hpiece
    rcases List.mem_append.mp hin with h2 | h2
    · unfold chunkOf at h2
      have hmem : '\n' ∈ (cellOutput (CTable.cellAt (CTable.mk R C grid) r c)
          (rowHeightOf (CTable.mk R C grid) r) (colWidthOf (CTable.mk R C grid) c)).getD v [] := h2
      rcases getD_default_or_mem (cellOutput (CTable.cellAt (CTable.mk R C grid) r c)
          (rowHeightOf (CTable.mk R C grid) r) (colWidthOf (CTable.mk R C grid) c)) v [] with he | hm
      · rw [he] at hmem; cases hmem
      · exact cellOutput_noNL (hcell r c) _ _ _ hm hmem
    · rw [List.mem_singleton] at h2
      exact absurd h2 (by decide)

/- ----------------------------------------------------------------------
Line lengths of the rendered output.
---------------------------------------------------------------------- -/

theorem borderBody_length (t : CTable) :
    (borderBody t).length = 1 + ((List.range t.colsOf).map fun c => colWidthOf t c + 1).sum := by
  unfold borderBody
  simp only [List.length_cons, List.length_flatten, List.map_map]
  have e : ((List.range t.colsOf).map
        (List.length ∘ fun c => List.replicate (colWidthOf t c) '-' ++ ['+']))
      = ((List.range t.colsOf).map fun c => colWidthOf t c + 1) := by
    apply List.map_eq_map_iff.mpr
    intro c hc
    simp
  rw [e]
  omega

theorem contentBody_length {t : CTable} {r v : Nat} (hr : r < t.rowsOf)
    (hv : v < rowHeightOf t r) :
    (contentBody t r v).length = 1 + ((List.range t.colsOf).map fun c => colWidthOf t c + 1).sum := by
  unfold contentBody
  simp only [List.length_cons, List.length_flatten, List.map_map]
  have e : ((List.range t.colsOf).map (List.length ∘ fun c => chunkOf t r v c ++ ['|']))
      = ((List.range t.colsOf).map fun c => colWidthOf t c + 1) := by
    apply List.map_eq_map_iff.mpr
    intro c hc
    simp [chunkOf_length hr hv]
  rw [e]
  omega

/- ----------------------------------------------------------------------
Identity of clone and of the copy constructor on well-formed tables.
---------------------------------------------------------------------- -/

theorem cloneC_id (cell : CBase) : cloneC cell = cell := by
  cases cell <;> rfl

theorem range_map_getD {α : Type} {l : List α} {n : Nat} (h : l.length = n) (d : α) :
    (List.range n).map (fun i => l.getD i d) = l := by
  apply List.ext_getElem
  · simp [h]
  · intro i h1 h2
    simp only [List.getElem_map, List.getElem_range]
    rw [List.getD_eq_getElem]

theorem tableCopy_eq_self {t : CTable} (hWF : t.WF) : CTable.copy t = t := by
  obtain ⟨R, C, grid⟩ := t
  obtain ⟨hlen, hrow⟩ := hWF
  unfold CTable.copy
  simp only [cloneC_id, CTable.mk.injEq, true_and]
  have inner : ∀ r, r < R → ((List.range C).map fun c => cellsAt grid r c) = grid.getD r [] := by
    intro r hr
    have hmem : grid.getD r [] ∈ grid := getD_mem_of_lt grid (by omega) []
    unfold cellsAt
    exact range_map_getD (hrow _ hmem) CBase.empty
  have outer : (List.range R).map (fun r => grid.getD r []) = grid := range_map_getD hlen []
  calc (List.range R).map (fun r => (List.range C).map fun c => cellsAt grid r c)
      = (List.range R).map (fun r => grid.getD r []) := by
        apply List.map_eq_map_iff.mpr
        intro r hr
        exact inner r (List.mem_range.mp hr)
    _ = grid := outer

/- ----------------------------------------------------------------------
Stability and reflexivity of the equality operators.
---------------------------------------------------------------------- -/

theorem beqCW_congr {F G : CTable → CTable → Bool} {c1 c2 : CBase}
    (h : ∀ tl, c1 = CBase.tcell tl → ∀ tr, F tl tr = G tl tr) :
    beqCW F c1 c2 = beqCW G c1 c2 := by
  cases c1 <;> cases c2 <;> try rfl
  exact h _ rfl _

theorem all_congr_list {α : Type} {f g : α → Bool} {l : List α}
    (h : ∀ x ∈ l, f x = g x) : l.all f = l.all g := by
  induction l with
  | nil => rfl
  | cons x xs ih =>
    simp only [List.all_cons]
    rw [h x (List.mem_cons_self x xs), ih fun y hy => h y (List.mem_cons_of_mem x hy)]

theorem beqTStep_congr {F G : CBase → CBase → Bool} {t1 t2 : CTable}
    (h : ∀ r c, F (t1.cellAt r c) (t2.cellAt r c) = G (t1.cellAt r c) (t2.cellAt r c)) :
    beqTStep F t1 t2 = beqTStep G t1 t2 := by
  obtain ⟨R1, C1, g1⟩ := t1
  obtain ⟨R2, C2, g2⟩ := t2
  simp only [beqTStep]
  split
  · rfl
  · apply all_congr_list
    intro r hr
    apply all_congr_list
    intro c hc
    exact h r c

theorem beqTF_stable : ∀ (n : Nat) (t1 : CTable), tsize t1 ≤ n →
    ∀ (t2 : CTable) (fuel : Nat), tsize t1 ≤ fuel →
      beqTF fuel t1 t2 = beqTF (tsize t1) t1 t2 := by
  intro n
  induction n with
  | zero => intro t1 ht; have := tsize_pos t1; omega
  | succ m ih =>
    intro t1 ht t2 fuel hf
    have h1 := tsize_pos t1
    obtain ⟨f, rfl⟩ : ∃ f, fuel = f + 1 := ⟨fuel - 1, by omega⟩
    obtain ⟨s, hseq⟩ : ∃ s, tsize t1 = s + 1 := ⟨tsize t1 - 1, by omega⟩
    rw [hseq]
    simp only [beqTF]
    apply beqTStep_congr
    intro r c
    apply beqCW_congr
    intro tl hl tr
    obtain ⟨R1, C1, g1⟩ := t1
    have hlt : tsize tl < tsize (CTable.mk R1 C1 g1) := tsize_inner_lt hl R1 C1
    have e1 : beqTF f tl tr = beqTF (tsize tl) tl tr := ih tl (by omega) tr f (by omega)
    have e2 : beqTF s tl tr = beqTF (tsize tl) tl tr := ih tl (by omega) tr s (by omega)
    rw [e1, e2]

theorem beqTF_eq_beq {t1 : CTable} {fuel : Nat} (h : tsize t1 ≤ fuel) (t2 : CTable) :
    beqTF fuel t1 t2 = CTable.beq t1 t2 :=
  beqTF_stable (tsize t1) t1 le_rfl t2 fuel h

theorem beqT_refl : ∀ (t : CTable), CTable.beq t t = true := by
  have main : ∀ (n : Nat) (t : CTable), tsize t ≤ n → CTable.beq t t = true := by
    intro n
    induction n with
    | zero => intro t ht; have := tsize_pos t; omega
    | succ m ih =>
      intro t ht
      show beqTF (tsize t) t t = true
      have h1 := tsize_pos t
      obtain ⟨s, hseq⟩ : ∃ s, tsize t = s + 1 := ⟨tsize t - 1, by omega⟩
      rw [hseq]
      simp only [beqTF]
      obtain ⟨R, C, grid⟩ := t
      simp only [beqTStep]
      rw [if_neg (by simp)]
      apply List.all_eq_true.mpr
      intro r hr
      apply List.all_eq_true.mpr
      intro c hc
      rcases hcell : cellsAt grid r c with _ | ⟨a, b⟩ | a | tl
      · rfl
      · simp [beqCW]
      · simp [beqCW]
      · show beqCW (beqTF s) (CBase.tcell tl) (CBase.tcell tl) = true
        show beqTF s tl tl = true
        have hlt : tsize tl < tsize (CTable.mk R C grid) := tsize_inner_lt hcell R C
        rw [beqTF_eq_beq (by omega) tl]
        exact ih tl (by omega)
  intro t
  exact main (tsize t) t le_rfl

theorem beqC_refl (cell : CBase) : CBase.beq cell cell = true := by
  cases cell with
  | empty => rfl
  | text a b => simp [CBase.beq, beqCW]
  | image a => simp [CBase.beq, beqCW]
  | tcell t => exact beqT_refl t

/- ----------------------------------------------------------------------
Stability of the nesting depth.
---------------------------------------------------------------------- -/

theorem cell_mem_flatten_tcell_lt {grid : List (List CBase)} {cell : CBase} {t : CTable}
    (hm : cell ∈ grid.flatten) (h : cell = CBase.tcell t) (R C : Nat) :
    tsize t < tsize (CTable.mk R C grid) := by
  obtain ⟨row, hrow, hmem⟩ := List.mem_flatten.mp hm
  rw [h] at hmem
  have h3 := csize_le_rowsize hmem
  have h4 := rowsize_le_gridsize hrow
  simp only [csize] at h3
  simp only [tsize]
  omega

theorem tdepthF_stable : ∀ (n : Nat) (t : CTable), tsize t ≤ n →
    ∀ fuel, tsize t ≤ fuel → tdepthF fuel t = tdepthF (tsize t) t := by
  intro n
  induction n with
  | zero => intro t ht; have := tsize_pos t; omega
  | succ m ih =>
    intro t ht fuel hf
    have h1 := tsize_pos t
    obtain ⟨f, rfl⟩ : ∃ f, fuel = f + 1 := ⟨fuel - 1, by omega⟩
    obtain ⟨s, hseq⟩ : ∃ s, tsize t = s + 1 := ⟨tsize t - 1, by omega⟩
    rw [hseq]
    obtain ⟨R, C, grid⟩ := t
    simp only [tdepthF]
    apply foldl_maxBy_congr
    intro cell hcell
    cases hc : cell with
    | empty => rfl
    | text a b => rfl
    | image a => rfl
    | tcell tl =>
      simp only [cdepthW]
      have hlt : tsize tl < tsize (CTable.mk R C grid) :=
        cell_mem_flatten_tcell_lt hcell hc R C
      have e1 : tdepthF f tl = tdepthF (tsize tl) tl := ih tl (by omega) f (by omega)
      have e2 : tdepthF s tl = tdepthF (tsize tl) tl := ih tl (by omega) s (by omega)
      rw [e1, e2]

theorem tdepthF_eq_depth {t : CTable} {fuel : Nat} (h : tsize t ≤ fuel) :
    tdepthF fuel t = CTable.depth t :=
  tdepthF_stable (tsize t) t le_rfl fuel h

theorem depth_eq_fold (R C : Nat) (grid : List (List CBase)) :
    CTable.depth (CTable.mk R C grid)
      = grid.flatten.foldl (fun a cell => max a (cdepthW CTable.depth cell)) 0 := by
  show tdepthF (tsize (CTable.mk R C grid)) (CTable.mk R C grid) = _
  have h1 := tsize_pos (CTable.mk R C grid)
  obtain ⟨s, hseq⟩ : ∃ s, tsize (CTable.mk R C grid) = s + 1 :=
    ⟨tsize (CTable.mk R C grid) - 1, by omega⟩
  rw [hseq]
  simp only [tdepthF]
  apply foldl_maxBy_congr
  intro cell hcell
  cases hc : cell with
  | empty => rfl
  | text a b => rfl
  | image a => rfl
  | tcell tl =>
    simp only [cdepthW]
    have hlt : tsize tl < tsize (CTable.mk R C grid) :=
      cell_mem_flatten_tcell_lt hcell hc R C
    rw [tdepthF_eq_depth (by omega)]

/- ----------------------------------------------------------------------
Grid update lemmas.
---------------------------------------------------------------------- -/

theorem get2_set2 {α : Type} {cells : List (List α)} {r c : Nat}
    (hr : r < cells.length) (hc : c < (cells.getD r []).length) (v : α) :
    ((set2 cells r c v).get? r).bind (fun row => row.get? c) = some v := by
  unfold set2
  rw [List.get?_set_eq_of_lt _ hr]
  simp only [Option.some_bind]
  exact List.get?_set_eq_of_lt v hc

theorem mem_set_self {α : Type} {l : List α} {i : Nat} (h : i < l.length) (a : α) :
    a ∈ l.set i a :=
  List.get?_mem (List.get?_set_eq_of_lt a h)

theorem getCell?_after_setCellTable {R C : Nat} {grid : List (List CBase)} {r c : Nat}
    {src : CTable} (hr : r < grid.length) (hc : c < (grid.getD r []).length) :
    (CTable.setCellTable (CTable.mk R C grid) r c src).getCell? r c
      = some (CBase.tcell (CTable.copy src)) := by
  show ((set2 grid r c (CBase.tcell (CTable.copy src))).get? r).bind (fun row => row.get? c)
      = some (CBase.tcell (CTable.copy src))
  exact get2_set2 hr hc _

theorem foldl_maxBy_acc {α : Type} (f : α → Nat) (l : List α) (b : Nat) :
    l.foldl (fun a x => max a (f x)) b = max b (l.foldl (fun a x => max a (f x)) 0) := by
  induction l generalizing b with
  | nil => simp
  | cons x xs ih =>
    simp only [List.foldl_cons]
    rw [ih (max b (f x)), ih (max 0 (f x))]
    omega

theorem maxLenFold_eq_spec (ls : List Str) : maxLenFold ls = specMaxLineLen ls := by
  induction ls with
  | nil => rfl
  | cons l rest ih =>
    unfold maxLenFold at *
    unfold specMaxLineLen at *
    simp only [List.foldl_cons, List.map_cons, List.foldr_cons]
    rw [foldl_maxBy_acc List.length rest (max 0 l.length), ih]
    omega

/- ----------------------------------------------------------------------
Claim theorems.
---------------------------------------------------------------------- -/

/-- C1: for every well-formed table with at least one row and one column,
the rendered output is exactly a border line followed, for each row in
order, by exactly rowHeight content lines and a border line, where the
border line is a plus sign followed for each column by colWidth dashes and
a plus sign, every content line is a pipe followed for each column by
exactly colWidth characters of that cell resized output and a pipe, and
every line is newline-terminated.  claimedRender spells out that shape in
the words of the claim, with colWidthOf and rowHeightOf the per-column and
per-row maxima of the natural Width and Height. -/
theorem c1_render_shape (t : CTable) (hWF : t.WF) (hR : 1 ≤ t.rowsOf) (hC : 1 ≤ t.colsOf) :
    t.render = claimedRender t
    ∧ (∀ r, r < t.rowsOf → ∀ v, v < rowHeightOf t r → ∀ c, c < t.colsOf →
        (chunkOf t r v c).length = colWidthOf t c)
    ∧ (∀ r, r < t.rowsOf →
        ((List.range (rowHeightOf t r)).map fun v => contentLineOf t r v).length
          = rowHeightOf t r) := by
  refine ⟨render_eq_claimed t, ?_, ?_⟩
  · intro r hr v hv c hc
    exact chunkOf_length hr hv
  · intro r hr
    simp

/-- Witness for C1 at the concrete 1 x 1 text table tHi. -/
theorem c1_render_shape_witness :
    tHi.WF ∧ 1 ≤ tHi.rowsOf ∧ 1 ≤ tHi.colsOf ∧ tHi.render = claimedRender tHi :=
  ⟨by decide, by decide, by decide,
    (c1_render_shape tHi (by decide) (by decide) (by decide)).1⟩

/-- C5 counterexample: the 1 x 1 table with an Empty cell does not render as
the three-line text claimed by the specification; the actual render has no
dash and no content line, because the row height (the maximum natural
Height, which is 0 for an Empty cell) is 0, so zero content lines are
emitted, and the column width 0 contributes zero dashes. -/
theorem c5_counterexample :
    ¬ (tEmpty11.render = ("+-+\n||\n+-+\n").data) := by decide

/-- C5 amended: the 1 x 1 Empty table renders as two border lines of the
form plus-plus and zero content lines, since both the column width and the
row height are 0. -/
theorem c5_amended :
    tEmpty11.render = ("++\n++\n").data
    ∧ colWidthOf tEmpty11 0 = 0
    ∧ rowHeightOf tEmpty11 0 = 0 := by decide

/-- C6: getCell and setCell perform the unchecked accesses Cells[row][col]
(lines 379 to 381 and 389 to 391); there is no bounds check and no
IndexOutOfRange error anywhere in the program (it defines no error or
exception type at all), so an out-of-range access has no defined result:
in C++ it is undefined behaviour.  The theorem shows that in the embedding
an out-of-range coordinate pair reaches no cell at all. -/
theorem c6_no_bounds_check (R C : Nat) (grid : List (List CBase))
    (hWF : (CTable.mk R C grid).WF) (r c : Nat) (h : R ≤ r ∨ C ≤ c) :
    (CTable.mk R C grid).getCell? r c = none := by
  obtain ⟨hlen, hrow⟩ := hWF
  simp only [CTable.getCell?]
  rcases h with h | h
  · rw [List.get?_eq_none.mpr (by omega)]
    rfl
  · rcases h2 : grid.get? r with _ | row
    · rfl
    · simp only [Option.some_bind]
      have : row.length = C := hrow row (List.get?_mem h2)
      rw [List.get?_eq_none.mpr (by omega)]

/-- Witness for C6 on a 3 x 2 table (the dimensions of the main test
table), at coordinates (3, 0). -/
theorem c6_no_bounds_check_witness :
    (CTable.new 3 2).WF ∧ (CTable.new 3 2).getCell? 3 0 = none :=
  ⟨by decide, c6_no_bounds_check 3 2 _ (by decide) 3 0 (by decide)⟩

/-- C7: whenever every stored line fits in the requested width, CText
Output returns exactly height strings, each exactly width characters; the
string at index i is derived from the stored line at index i when it
exists and from the empty string otherwise, padded with spaces on the
right for ALIGN_LEFT and on the left for ALIGN_RIGHT. -/
theorem c7_text_output (allLines : List Str) (formatType : FormatingType) (h w : Nat)
    (hlines : ∀ l ∈ allLines, l.length ≤ w) :
    (CText.Output allLines formatType h w).length = h
    ∧ (∀ i, i < h → (CText.Output allLines formatType h w).getD i []
        = (match formatType with
           | .ALIGN_LEFT =>
              allLines.getD i [] ++ List.replicate (w - (allLines.getD i []).length) ' '
           | .ALIGN_RIGHT =>
              List.replicate (w - (allLines.getD i []).length) ' ' ++ allLines.getD i []))
    ∧ (∀ l ∈ CText.Output allLines formatType h w, l.length = w) := by
  have hw : CText.Width allLines ≤ w :=
    foldl_maxBy_le List.length (Nat.zero_le w) hlines
  refine ⟨(textOutput_shape allLines formatType h w hw).1, ?_,
    (textOutput_shape allLines formatType h w hw).2⟩
  intro i hi
  unfold CText.Output
  rw [getD_range_map _ hi]

/-- Witness for C7 on two concrete stored lines at height 3, width 4. -/
theorem c7_text_output_witness :
    (∀ l ∈ [("Hi").data, ("abcd").data], l.length ≤ 4)
    ∧ (CText.Output [("Hi").data, ("abcd").data] FormatingType.ALIGN_LEFT 3 4).length = 3 :=
  ⟨by decide,
    (c7_text_output [("Hi").data, ("abcd").data] FormatingType.ALIGN_LEFT 3 4 (by decide)).1⟩

/-- C8 counterexample: assignment does change the dimensions; assigning a
2 x 3 table into a 1 x 1 table leaves the target with 2 rows, not 1, since
operator= copies Rows and Cols from the source (lines 433 to 445). -/
theorem c8_counterexample :
    ¬ ((CTable.assign (CTable.new 1 1) (CTable.new 2 3)).rowsOf
        = (CTable.new 1 1).rowsOf) := by decide

/-- C8 amended: construction fixes the dimensions, and cell replacement
(both overloads) and in-place text mutation through getCell never change
them; rendering and comparison do not modify the table at all (they are
pure functions in the embedding); copy assignment however sets the
dimensions to those of the assigned source table, so it preserves them
only when the source has the same dimensions. -/
theorem c8_amended :
    (∀ R C, (CTable.new R C).rowsOf = R ∧ (CTable.new R C).colsOf = C)
    ∧ (∀ t r c v, (CTable.setCell t r c v).rowsOf = t.rowsOf
        ∧ (CTable.setCell t r c v).colsOf = t.colsOf)
    ∧ (∀ t r c src, (CTable.setCellTable t r c src).rowsOf = t.rowsOf
        ∧ (CTable.setCellTable t r c src).colsOf = t.colsOf)
    ∧ (∀ t r c s, (CTable.setTextAt t r c s).rowsOf = t.rowsOf
        ∧ (CTable.setTextAt t r c s).colsOf = t.colsOf)
    ∧ (∀ t other, (CTable.assign t other).rowsOf = other.rowsOf
        ∧ (CTable.assign t other).colsOf = other.colsOf) := by
  refine ⟨fun R C => ⟨rfl, rfl⟩, ?_, ?_, ?_, ?_⟩
  · intro t r c v; cases t; exact ⟨rfl, rfl⟩
  · intro t r c src; cases t; exact ⟨rfl, rfl⟩
  · intro t r c s; cases t; exact ⟨rfl, rfl⟩
  · intro t other; cases other; exact ⟨rfl, rfl⟩

/-- C9: the embedded-table adapter reports as Width the maximum line length
of the full rendered text block of the embedded table, and as Height the
number of its lines, counting an unterminated trailing fragment as one
more line; getlines splits the block exactly as repeated std::getline
does, so the line count below includes such a fragment. -/
theorem c9_tcell_measures (t : CTable) :
    cellWidth (CBase.tcell t) = specMaxLineLen (getlines t.render)
    ∧ cellHeight (CBase.tcell t) = (getlines t.render).length := by
  constructor
  · show CTableCell.WidthOf t.render = _
    unfold CTableCell.WidthOf
    exact maxLenFold_eq_spec (getlines t.render)
  · exact tcellHeightOf_eq t.render

/-- C10 counterexample: the lines of the rendered output are not all of the
same length for every table: an image row may contain an embedded newline
character (addRow accepts any string), and the newline is copied verbatim
into the content line, splitting it.  For the 1 x 1 table whose image cell
is the single row a-newline-b, the rendered text has lines of lengths 5, 2,
2, 5. -/
theorem c10_counterexample :
    ¬ (∀ line ∈ getlines tBadImage.render,
        line.length
          = 1 + ((List.range tBadImage.colsOf).map fun c => colWidthOf tBadImage c + 1).sum) := by
  decide

/-- C10 amended: for every table whose direct cells contain no embedded
newline character (text lines built through setText never do; image rows
must avoid them), all lines of the rendered output, border lines and
content lines alike, have the same length 1 plus the sum over the columns
of colWidth plus 1; deeper nested tables need no restriction because an
embedded table contributes through getline-split lines, which are always
newline-free. -/
theorem c10_amended (t : CTable) (hnn : tableNoNL t = true) :
    ∀ line ∈ getlines t.render,
      line.length = 1 + ((List.range t.colsOf).map fun c => colWidthOf t c + 1).sum := by
  rw [render_eq_claimed, claimed_eq_bodies]
  rw [getlines_flatten ?hnl]
  case hnl =>
    intro b hb
    rcases lineBodies_mem hb with rfl | ⟨r, hr, v, hv, rfl⟩
    · exact borderBody_noNL t
    · exact contentBody_noNL hnn r v
  intro line hline
  rcases lineBodies_mem hline with rfl | ⟨r, hr, v, hv, rfl⟩
  · exact borderBody_length t
  · exact contentBody_length hr hv

/-- Witness for C10 amended at the concrete 1 x 1 text table tHi. -/
theorem c10_amended_witness :
    tableNoNL tHi = true
    ∧ ∀ line ∈ getlines tHi.render,
        line.length = 1 + ((List.range tHi.colsOf).map fun c => colWidthOf tHi c + 1).sum :=
  ⟨by decide, c10_amended tHi (by decide)⟩

/-- C2: inserting a table into itself stores a deep snapshot taken at call
time (the CTableCell constructor copies the table, and on a well-formed
table the copy is the same value), so the cell holds the old value of the
table, the nesting depth grows by exactly one level, and rendering the
self-embedded table needs only bounded fuel: any fuel of at least the
structural size gives the same finite output, which is the fuel-based form
of termination of the recursive render. -/
theorem c2_self_embedding (t : CTable) (hWF : t.WF) (hR : 1 ≤ t.rowsOf) (hC : 1 ≤ t.colsOf) :
    (t.setCellTable 0 0 t).getCell? 0 0 = some (CBase.tcell t)
    ∧ CTable.depth (t.setCellTable 0 0 t) = CTable.depth t + 1
    ∧ (∀ fuel, tsize (t.setCellTable 0 0 t) ≤ fuel →
        renderTF fuel (t.setCellTable 0 0 t) = (t.setCellTable 0 0 t).render) := by
  have hcopy : CTable.copy t = t := tableCopy_eq_self hWF
  obtain ⟨R, C, grid⟩ := t
  obtain ⟨hlen, hrowlen⟩ := hWF
  simp only [CTable.rowsOf, CTable.colsOf] at hR hC
  have hrow0 : (grid.getD 0 []).length = C := hrowlen _ (getD_mem_of_lt grid (by omega) [])
  refine ⟨?_, ?_, ?_⟩
  · rw [show (CTable.setCellTable (CTable.mk R C grid) 0 0 (CTable.mk R C grid)).getCell? 0 0
        = some (CBase.tcell (CTable.copy (CTable.mk R C grid))) from
      getCell?_after_setCellTable (by omega) (by omega)]
    rw [hcopy]
  · set v := CBase.tcell (CTable.mk R C grid) with hv
    have hstep : CTable.setCellTable (CTable.mk R C grid) 0 0 (CTable.mk R C grid)
        = CTable.mk R C (set2 grid 0 0 v) := by
      show CTable.mk R C (set2 grid 0 0 (CBase.tcell (CTable.copy (CTable.mk R C grid))))
          = CTable.mk R C (set2 grid 0 0 v)
      rw [hcopy]
    rw [hstep]
    set grid2 := set2 grid 0 0 v with hgrid2
    have hvmem : v ∈ grid2.flatten := by
      apply List.mem_flatten.mpr
      refine ⟨(grid.getD 0 []).set 0 v, ?_, ?_⟩
      · exact mem_set_self (by omega) _
      · exact mem_set_self (by omega) v
    have hother : ∀ cell ∈ grid2.flatten, cell = v ∨ cell ∈ grid.flatten := by
      intro cell hcell
      obtain ⟨row2, hrow2, hcellmem⟩ := List.mem_flatten.mp hcell
      rcases List.mem_or_eq_of_mem_set hrow2 with hrow2 | rfl
      · exact Or.inr (List.mem_flatten.mpr ⟨row2, hrow2, hcellmem⟩)
      · rcases List.mem_or_eq_of_mem_set hcellmem with hcellmem | rfl
        · exact Or.inr (List.mem_flatten.mpr
            ⟨grid.getD 0 [], getD_mem_of_lt grid (by omega) [], hcellmem⟩)
        · exact Or.inl rfl
    have hbound : ∀ cell ∈ grid.flatten,
        cdepthW CTable.depth cell ≤ CTable.depth (CTable.mk R C grid) := by
      intro cell hcell
      rw [depth_eq_fold]
      exact le_foldl_maxBy _ hcell 0
    have hvdepth : cdepthW CTable.depth v = CTable.depth (CTable.mk R C grid) + 1 := by
      simp [cdepthW]
      omega
    apply Nat.le_antisymm
    · rw [depth_eq_fold]
      apply foldl_maxBy_le _ (by omega)
      intro cell hcell
      rcases hother cell hcell with rfl | hcell2
      · omega
      · have := hbound cell hcell2
        omega
    · rw [depth_eq_fold R C grid2]
      have := le_foldl_maxBy (fun cell => cdepthW CTable.depth cell) hvmem 0
      omega
  · intro fuel hfuel
    exact renderTF_eq_render hfuel

/-- Witness for C2 at the concrete 2 x 2 text table tOop. -/
theorem c2_self_embedding_witness :
    tOop.WF ∧ 1 ≤ tOop.rowsOf ∧ 1 ≤ tOop.colsOf
    ∧ (tOop.setCellTable 0 0 tOop).getCell? 0 0 = some (CBase.tcell tOop) :=
  ⟨by decide, by decide, by decide,
    (c2_self_embedding tOop (by decide) (by decide) (by decide)).1⟩

/-- C3: setCell with a table argument stores a frozen deep snapshot of the
source read out of the store at call time (a fresh CTableCell object whose
payload is the deep copy), so any later mutation of the source cells leaves
the destination cell and its rendered output unchanged.  The two mutations
of the claim are covered: replacing a cell of the source (setCellS, which
only allocates a fresh clone and repoints the source grid) and mutating a
cell content in place (setTextS at any address that existed before the
insertion, which covers every cell address of the source). -/
theorem c3_snapshot_freezing (store : Store) (dst src : STable) (r c : Nat)
    (hr : r < dst.cells.length) (hc : c < (dst.cells.getD r []).length) :
    getCellS (setCellTableS store dst r c src).1 (setCellTableS store dst r c src).2 r c
        = some (CBase.tcell (readTableS store src))
    ∧ (∀ i j v,
        getCellS (setCellS (setCellTableS store dst r c src).1 src i j v).1
            (setCellTableS store dst r c src).2 r c
          = some (CBase.tcell (readTableS store src)))
    ∧ (∀ a s2, a < store.length →
        getCellS (setTextS (setCellTableS store dst r c src).1 a s2)
            (setCellTableS store dst r c src).2 r c
          = some (CBase.tcell (readTableS store src)))
    ∧ (∀ a s2 h w, a < store.length →
        ((getCellS (setTextS (setCellTableS store dst r c src).1 a s2)
            (setCellTableS store dst r c src).2 r c).map fun cb => cellOutput cb h w)
          = ((getCellS (setCellTableS store dst r c src).1
              (setCellTableS store dst r c src).2 r c).map fun cb => cellOutput cb h w)) := by
  have haddr : ((set2 dst.cells r c store.length).get? r).bind (fun row => row.get? c)
      = some store.length := get2_set2 hr hc store.length
  have hbase : getCellS (setCellTableS store dst r c src).1
      (setCellTableS store dst r c src).2 r c
      = some (CBase.tcell (readTableS store src)) := by
    show (((set2 dst.cells r c store.length).get? r).bind (fun row => row.get? c)).bind
        (fun a => (store ++ [CBase.tcell (readTableS store src)]).get? a)
      = some (CBase.tcell (readTableS store src))
    rw [haddr]
    simp only [Option.some_bind]
    exact List.get?_concat_length store _
  have hset : ∀ a s2, a < store.length →
      getCellS (setTextS (setCellTableS store dst r c src).1 a s2)
          (setCellTableS store dst r c src).2 r c
        = some (CBase.tcell (readTableS store src)) := by
    intro a s2 ha
    show (((set2 dst.cells r c store.length).get? r).bind (fun row => row.get? c)).bind
        (fun a2 => (setTextS (store ++ [CBase.tcell (readTableS store src)]) a s2).get? a2)
      = some (CBase.tcell (readTableS store src))
    rw [haddr]
    simp only [Option.some_bind]
    unfold setTextS
    rw [List.get?_set_ne _ _ (by omega)]
    exact List.get?_concat_length store _
  refine ⟨hbase, ?_, hset, ?_⟩
  · intro i j v
    show (((set2 dst.cells r c store.length).get? r).bind (fun row => row.get? c)).bind
        (fun a => ((store ++ [CBase.tcell (readTableS store src)]) ++ [cloneC v]).get? a)
      = some (CBase.tcell (readTableS store src))
    rw [haddr]
    simp only [Option.some_bind]
    rw [List.get?_append (by simp)]
    exact List.get?_concat_length store _
  · intro a s2 h w ha
    rw [hset a s2 ha, hbase]

/-- Witness for C3 at the concrete store storeW with tables dstW and srcW. -/
theorem c3_snapshot_freezing_witness :
    0 < dstW.cells.length
    ∧ getCellS (setCellTableS storeW dstW 0 0 srcW).1 (setCellTableS storeW dstW 0 0 srcW).2 0 0
        = some (CBase.tcell (readTableS storeW srcW)) :=
  ⟨by decide, (c3_snapshot_freezing storeW dstW srcW 0 0 (by decide) (by decide)).1⟩

/-- C4: Clone of every content variant compares equal to the original under
the content equality operator (the payload is copied, and for an embedded
table the shared snapshot compares equal to itself by the recursive table
equality), and mutating the backing store of a clone afterwards, by calling
setText on the cloned object, leaves the original object unchanged, because
Clone allocates a fresh object. -/
theorem c4_clone_roundtrip :
    (∀ cell : CBase, CBase.beq (cloneC cell) cell = true)
    ∧ (∀ (store : Store) (a : Nat) (obj : CBase) (s2 : Str), store.get? a = some obj →
        (setTextS (allocS store (cloneC obj)).1 (allocS store (cloneC obj)).2 s2).get? a
          = some obj) := by
  constructor
  · intro cell
    rw [cloneC_id]
    exact beqC_refl cell
  · intro store a obj s2 hobj
    have ha : a < store.length := by
      by_contra h2
      rw [List.get?_eq_none.mpr (by omega)] at hobj
      cases hobj
    show (setTextS (store ++ [cloneC obj]) store.length s2).get? a = some obj
    unfold setTextS
    rw [List.get?_set_ne _ _ (by omega)]
    rw [List.get?_append ha]
    exact hobj

/-- Witness for C4: clone equality at a concrete embedded-table content and
store independence at the concrete store storeW. -/
theorem c4_clone_roundtrip_witness :
    CBase.beq (cloneC (CBase.tcell tOop)) (CBase.tcell tOop) = true
    ∧ storeW.get? 0 = some (CBase.text [("ab").data] FormatingType.ALIGN_LEFT) :=
  ⟨c4_clone_roundtrip.1 (CBase.tcell tOop), rfl⟩
